import Mathlib

/-!
Verification of the tabular Q-learning agent (cartpole.py / qtable.py).

Shallow embedding conventions:
* Python floats are modelled by `ℚ` (exact arithmetic).
* A raised exception is modelled by `none` / an `Option`-valued result.
* The numpy Q-value array is modelled by a total function from the list of
  per-factor indices and the action index to the stored value; the per-factor
  index dictionaries (`_states_idxs`, `_actions_idxs`) are modelled by
  `lastIdxOf` (a Python dict comprehension keeps the last occurrence of a key).
* The unbounded `while` loop of `find_nearest` is modelled with explicit fuel:
  the outer `none` means the fuel ran out (the loop did not finish), while
  `some none` means the loop exited with `start >= end` and the function fell
  through returning Python `None`.
-/

/-- Model of `get_closer` from cartpole.py: `a if abs(target-a) <= abs(target-b) else b`. -/
def get_closer (target a b : ℚ) : ℚ :=
  if |target - a| ≤ |target - b| then a else b

/-- Model of the binary-search loop of `find_nearest` (cartpole.py, lines 33-52).
The first `ℕ` argument is fuel; the next two are `start` and `end`. -/
def findNearestLoop (ls : List ℚ) (target : ℚ) : ℕ → ℕ → ℕ → Option (Option ℚ)
  | 0, _, _ => none
  | fuel + 1, start, stop =>
    if start < stop then
      if ls.getD ((start + stop) / 2) 0 = target then
        some (some (ls.getD ((start + stop) / 2) 0))
      else if ls.getD ((start + stop) / 2) 0 < target then
        if (start + stop) / 2 < ls.length - 1 ∧ target < ls.getD ((start + stop) / 2 + 1) 0 then
          some (some (get_closer target (ls.getD ((start + stop) / 2) 0)
            (ls.getD ((start + stop) / 2 + 1) 0)))
        else
          findNearestLoop ls target fuel ((start + stop) / 2) stop
      else
        if 0 < (start + stop) / 2 ∧ ls.getD ((start + stop) / 2 - 1) 0 < target then
          some (some (get_closer target (ls.getD ((start + stop) / 2) 0)
            (ls.getD ((start + stop) / 2 - 1) 0)))
        else
          findNearestLoop ls target fuel start ((start + stop) / 2)
    else
      some none

/-- Model of `find_nearest` from cartpole.py: edge clamps first, then the
binary-search loop started with `start = 0`, `end = len(ls)`.  Fuel
`ls.length + 1` is shown sufficient for every sorted input
(`findNearestLoop_correct`). -/
def find_nearest (ls : List ℚ) (target : ℚ) : Option (Option ℚ) :=
  if ls.getD (ls.length - 1) 0 ≤ target then
    some (some (ls.getD (ls.length - 1) 0))
  else if target ≤ ls.getD 0 0 then
    some (some (ls.getD 0 0))
  else
    findNearestLoop ls target (ls.length + 1) 0 ls.length

/-- Model of `numpy.arange(lo, hi, step)` as used by
`discretize_observation_space`: the elements `lo + i*step` for
`0 ≤ i < ⌈(hi-lo)/step⌉`; `step = 0` raises. -/
def arange (lo hi step : ℚ) : Option (List ℚ) :=
  if step = 0 then none
  else some ((List.range (Int.toNat ⌈(hi - lo) / step⌉)).map (fun i => lo + (i : ℚ) * step))

/-- Model of `discretize_observation_space` from cartpole.py: one `arange`
domain per (min, max) bound, paired positionally with its step; a missing
step (`steps` shorter than the bounds list) raises. -/
def discretize_observation_space : List (ℚ × ℚ) → List ℚ → Option (List (List ℚ))
  | [], _ => some []
  | _ :: _, [] => none
  | b :: bs, st :: sts =>
    match arange b.1 b.2 st with
    | none => none
    | some dom =>
      match discretize_observation_space bs sts with
      | none => none
      | some rest => some (dom :: rest)

/-- Model of looking a key up in a Python dict built by
`{x : idx for idx, x in enumerate(l)}`: the index of the last occurrence of
the key, `none` if the key is absent (a `KeyError`). -/
def lastIdxOf {α : Type} [DecidableEq α] : List α → α → Option ℕ
  | [], _ => none
  | x :: xs, v =>
    match lastIdxOf xs v with
    | some i => some (i + 1)
    | none => if x = v then some 0 else none

/-- Model of the loop of `QTable._get_state_values`: resolve each component of
the state through the dictionary of its factor (`_states_idxs[idx]`), starting
at factor index `k`; `none` models the `KeyError` / `IndexError`. -/
def resolveStateAux (domains : List (List ℚ)) : ℕ → List ℚ → Option (List ℕ)
  | _, [] => some []
  | k, v :: rest =>
    match domains.get? k with
    | none => none
    | some dom =>
      match lastIdxOf dom v with
      | none => none
      | some i =>
        match resolveStateAux domains (k + 1) rest with
        | none => none
        | some is => some (i :: is)

/-- Resolution of a full state key to its list of per-factor table indices. -/
def resolveState (domains : List (List ℚ)) (state : List ℚ) : Option (List ℕ) :=
  resolveStateAux domains 0 state

/-- Model of the `QTable` object of qtable.py.  The numpy array `_table` is a
total function from per-factor index list and action index to the stored
value; `_states_idxs` / `_actions_idxs` are recomputed from
`observation_space` / `actions` via `lastIdxOf` (they are built once in
`__init__` and never mutated, so this is observationally the same). -/
structure QTable where
  table : List ℕ → ℕ → ℚ
  observation_space : List (List ℚ)
  actions : List ℕ
  learning_rate : ℚ
  discount_rate : ℚ
  exploration_decay : ℚ
  exploration_rate : ℚ

/-- Model of `QTable.__init__`: zero table, exploration rate 1. -/
def QTable.init (observation_space : List (List ℚ)) (actions : List ℕ)
    (learning_rate discount_rate exploration_decay : ℚ) : QTable :=
  { table := fun _ _ => 0
    observation_space := observation_space
    actions := actions
    learning_rate := learning_rate
    discount_rate := discount_rate
    exploration_decay := exploration_decay
    exploration_rate := 1 }

/-- Model of `QTable._get_qvalue`: resolve the state, then the action, then
read the cell; `none` models the `KeyError`. -/
def QTable.get_qvalue (q : QTable) (s : List ℚ) (a : ℕ) : Option ℚ :=
  match resolveState q.observation_space s with
  | none => none
  | some idxs =>
    match lastIdxOf q.actions a with
    | none => none
    | some ai => some (q.table idxs ai)

/-- Writing one cell of the table (`action_qvalues[a_idx] = new_value`). -/
def QTable.setCell (q : QTable) (idxs : List ℕ) (ai : ℕ) (v : ℚ) : QTable :=
  { q with table := fun ks b => if ks = idxs ∧ b = ai then v else q.table ks b }

/-- Model of `QTable._update_qvalue`: resolve the state row, resolve the
action, and only then perform the single cell assignment. -/
def QTable.update_qvalue (q : QTable) (s : List ℚ) (a : ℕ) (v : ℚ) : Option Unit × QTable :=
  match resolveState q.observation_space s with
  | none => (none, q)
  | some idxs =>
    match lastIdxOf q.actions a with
    | none => (none, q)
    | some ai => (some (), q.setCell idxs ai v)

/-- Model of `numpy.argmax` scanning (first occurrence of the maximum wins):
fold over the remaining list, carrying the current best (index, value) pair
and the index of the next element. -/
def scanMax : List ℚ → ℕ × ℚ → ℕ → ℕ × ℚ
  | [], best, _ => best
  | x :: xs, best, i => scanMax xs (if best.2 < x then (i, x) else best) (i + 1)

/-- Model of `numpy.argmax` on a 1-D array, returning (index, value); numpy
raises on an empty array, and the `(0, 0)` result for `[]` is never used
(the callers guard it through `List.get?`). -/
def argmax : List ℚ → ℕ × ℚ
  | [] => (0, 0)
  | x :: xs => scanMax xs (0, x) 1

/-- The row of Q-values at a resolved state: one entry per action index
(`self._get_state_values(state)` as a 1-D array). -/
def QTable.stateActionValues (q : QTable) (idxs : List ℕ) : List ℚ :=
  (List.range q.actions.length).map (fun b => q.table idxs b)

/-- Model of `QTable._get_max_action`: argmax over the action axis of the
resolved row, returning `(self.actions[max_idx], row[max_idx])`. -/
def QTable.get_max_action (q : QTable) (s : List ℚ) : Option (ℕ × ℚ) :=
  match resolveState q.observation_space s with
  | none => none
  | some idxs =>
    match q.actions.get? (argmax (q.stateActionValues idxs)).1,
          (q.stateActionValues idxs).get? (argmax (q.stateActionValues idxs)).1 with
    | some act, some v => some (act, v)
    | _, _ => none

/-- Model of `QTable.process_step`: read the old Q-value, compute the target
from the best action at the new state, then write the blended value through
`_update_qvalue`.  On any error (`none`) the table component is returned
unchanged, exactly as in Python where the lone write is the final operation. -/
def QTable.process_step (q : QTable) (s : List ℚ) (a : ℕ) (s2 : List ℚ) (r : ℚ) :
    Option Unit × QTable :=
  match q.get_qvalue s a with
  | none => (none, q)
  | some old =>
    match q.get_max_action s2 with
    | none => (none, q)
    | some av =>
      q.update_qvalue s a
        ((1 - q.learning_rate) * old + q.learning_rate * (r + q.discount_rate * av.2))

/-- Model of `QTable.update_exploration_rate`. -/
def QTable.update_exploration_rate (q : QTable) : QTable :=
  { q with exploration_rate := q.exploration_rate * (1 - q.exploration_decay) }

/-- `n` successive calls of `update_exploration_rate`. -/
def decayIter (q : QTable) : ℕ → QTable
  | 0 => q
  | n + 1 => (decayIter q n).update_exploration_rate

/-- Concrete table realizing the spec's worked example: single factor domain
`[0,1,2]`, actions `[0,1]`, learning rate 1/2, discount rate 1, with
`value(1,0) = 2` and `value(1,1) = 4`, all other cells 0. -/
def exampleTable : QTable :=
  { table := fun ks b =>
      if ks = [1] ∧ b = 0 then 2 else if ks = [1] ∧ b = 1 then 4 else 0
    observation_space := [[0, 1, 2]]
    actions := [0, 1]
    learning_rate := 1/2
    discount_rate := 1
    exploration_decay := 1/100
    exploration_rate := 1 }

/-! ### List access helpers -/

lemma getD_mem_of_lt (l : List ℚ) (i : ℕ) (h : i < l.length) : l.getD i 0 ∈ l := by
  rw [List.getD_eq_get l 0 h]
  exact List.get_mem l i h

lemma sorted_getD_lt (l : List ℚ) (hs : List.Sorted (· < ·) l) {i j : ℕ}
    (hij : i < j) (hj : j < l.length) : l.getD i 0 < l.getD j 0 := by
  have hi : i < l.length := lt_trans hij hj
  rw [List.getD_eq_get l 0 hi, List.getD_eq_get l 0 hj]
  exact List.pairwise_iff_get.mp hs ⟨i, hi⟩ ⟨j, hj⟩ hij

lemma sorted_getD_le (l : List ℚ) (hs : List.Sorted (· < ·) l) {i j : ℕ}
    (hij : i ≤ j) (hj : j < l.length) : l.getD i 0 ≤ l.getD j 0 := by
  rcases Nat.lt_or_ge i j with h | h
  · exact le_of_lt (sorted_getD_lt l hs h hj)
  · have : i = j := le_antisymm hij h
    rw [this]

/-! ### get_closer and the bracketing argument -/

lemma get_closer_spec (t a b : ℚ) :
    (get_closer t a b = a ∨ get_closer t a b = b) ∧
      |t - get_closer t a b| = min |t - a| |t - b| := by
  unfold get_closer
  by_cases h : |t - a| ≤ |t - b|
  · rw [if_pos h]
    exact ⟨Or.inl rfl, (min_eq_left h).symm⟩
  · rw [if_neg h]
    exact ⟨Or.inr rfl, (min_eq_right (le_of_lt (lt_of_not_le h))).symm⟩

lemma bracket_min (ls : List ℚ) (t : ℚ) (hs : List.Sorted (· < ·) ls) (i : ℕ)
    (hi1 : i + 1 < ls.length) (h1 : ls.getD i 0 ≤ t) (h2 : t ≤ ls.getD (i + 1) 0) :
    ∀ x ∈ ls, min |t - ls.getD i 0| |t - ls.getD (i + 1) 0| ≤ |t - x| := by
  intro x hx
  obtain ⟨⟨k, hk⟩, hget⟩ := List.mem_iff_get.mp hx
  have hxk : x = ls.getD k 0 := by rw [List.getD_eq_get ls 0 hk, hget]
  rcases Nat.lt_or_ge k (i + 1) with hki | hki
  · -- k ≤ i : x ≤ ls[i] ≤ t
    have hxle : x ≤ ls.getD i 0 := by
      rw [hxk]
      exact sorted_getD_le ls hs (Nat.lt_succ_iff.mp hki) (Nat.lt_of_succ_lt hi1)
    have h3 : |t - ls.getD i 0| = t - ls.getD i 0 := abs_of_nonneg (by linarith)
    have h4 : |t - x| = t - x := abs_of_nonneg (by linarith)
    calc min |t - ls.getD i 0| |t - ls.getD (i + 1) 0| ≤ |t - ls.getD i 0| := min_le_left _ _
      _ ≤ |t - x| := by rw [h3, h4]; linarith
  · -- k ≥ i + 1 : t ≤ ls[i+1] ≤ x
    have hxge : ls.getD (i + 1) 0 ≤ x := by
      rw [hxk]
      exact sorted_getD_le ls hs hki hk
    have h3 : |t - ls.getD (i + 1) 0| = ls.getD (i + 1) 0 - t := by
      rw [abs_sub_comm]; exact abs_of_nonneg (by linarith)
    have h4 : |t - x| = x - t := by
      rw [abs_sub_comm]; exact abs_of_nonneg (by linarith)
    calc min |t - ls.getD i 0| |t - ls.getD (i + 1) 0| ≤ |t - ls.getD (i + 1) 0| :=
        min_le_right _ _
      _ ≤ |t - x| := by rw [h3, h4]; linarith

/-! ### Correctness of the binary-search loop -/

lemma findNearestLoop_correct (ls : List ℚ) (t : ℚ) (hs : List.Sorted (· < ·) ls)
    (hn : 2 ≤ ls.length) (hrt : t < ls.getD (ls.length - 1) 0) :
    ∀ fuel start stop, start < stop → stop ≤ ls.length → stop - start ≤ fuel →
      ls.getD start 0 < t → (stop < ls.length → t < ls.getD stop 0) →
      ∃ v, findNearestLoop ls t fuel start stop = some (some v) ∧ v ∈ ls ∧
        ∀ x ∈ ls, |t - v| ≤ |t - x| := by
  intro fuel
  induction fuel with
  | zero =>
    intro start stop h1 _ h3 _ _
    omega
  | succ f ih =>
    intro start stop h1 h2 h3 h4 h5
    rw [findNearestLoop, if_pos h1]
    set mid := (start + stop) / 2 with hmid
    have hmid1 : start ≤ mid := by omega
    have hmid2 : mid < stop := by omega
    have hmidlen : mid < ls.length := lt_of_lt_of_le hmid2 h2
    by_cases he : ls.getD mid 0 = t
    · rw [if_pos he]
      refine ⟨ls.getD mid 0, rfl, getD_mem_of_lt ls mid hmidlen, ?_⟩
      intro x hx
      rw [he]
      simp [abs_nonneg]
    · rw [if_neg he]
      by_cases hlt : ls.getD mid 0 < t
      · rw [if_pos hlt]
        by_cases hg : mid < ls.length - 1 ∧ t < ls.getD (mid + 1) 0
        · rw [if_pos hg]
          have hm1len : mid + 1 < ls.length := by omega
          obtain ⟨hmem, habs⟩ :=
            get_closer_spec t (ls.getD mid 0) (ls.getD (mid + 1) 0)
          refine ⟨_, rfl, ?_, ?_⟩
          · rcases hmem with h | h <;> rw [h]
            · exact getD_mem_of_lt ls mid hmidlen
            · exact getD_mem_of_lt ls (mid + 1) hm1len
          · intro x hx
            rw [habs]
            exact bracket_min ls t hs mid hm1len (le_of_lt hlt) (le_of_lt hg.2) x hx
        · rw [if_neg hg]
          have hsm : start < mid := by
            rcases Nat.lt_or_ge start mid with h | h
            · exact h
            · exfalso
              have hms : mid = start := le_antisymm (by omega) hmid1
              have hstop : stop = start + 1 := by omega
              have hstoplen : stop < ls.length := by
                rcases Nat.lt_or_ge stop ls.length with hh | hh
                · exact hh
                · exfalso
                  have : stop = ls.length := le_antisymm h2 hh
                  have : mid = ls.length - 1 := by omega
                  rw [this] at hlt
                  exact absurd hrt (not_lt_of_gt hlt)
              exact hg ⟨by omega, by
                have : mid + 1 = stop := by omega
                rw [this]
                exact h5 hstoplen⟩
          exact ih mid stop hmid2 h2 (by omega) hlt h5
      · have hgt : t < ls.getD mid 0 :=
          lt_of_le_of_ne (le_of_not_lt hlt) (fun hh => he hh.symm)
        rw [if_neg hlt]
        by_cases hg : 0 < mid ∧ ls.getD (mid - 1) 0 < t
        · rw [if_pos hg]
          have hm1 : mid - 1 + 1 = mid := by omega
          have hm1len : mid - 1 + 1 < ls.length := by omega
          obtain ⟨hmem, habs⟩ :=
            get_closer_spec t (ls.getD mid 0) (ls.getD (mid - 1) 0)
          refine ⟨_, rfl, ?_, ?_⟩
          · rcases hmem with h | h <;> rw [h]
            · exact getD_mem_of_lt ls mid hmidlen
            · exact getD_mem_of_lt ls (mid - 1) (by omega)
          · intro x hx
            rw [habs, min_comm]
            have := bracket_min ls t hs (mid - 1) hm1len (le_of_lt hg.2)
              (by rw [hm1]; exact le_of_lt hgt) x hx
            rw [hm1] at this
            exact this
        · rw [if_neg hg]
          have hsm : start < mid := by
            rcases Nat.lt_or_ge start mid with h | h
            · exact h
            · exfalso
              have hms : mid = start := le_antisymm h hmid1
              rw [hms] at hgt
              exact absurd h4 (not_lt_of_gt hgt)
          exact ih start mid hsm (le_of_lt hmidlen) (by omega) h4 (fun _ => hgt)

/-- Full behaviour of `find_nearest` on a sorted non-empty domain: it returns
a value, the value is in the domain, it obeys the two edge clamps, and it is
always at minimum absolute distance from the target. -/
lemma find_nearest_spec (ls : List ℚ) (t : ℚ) (hne : ls ≠ [])
    (hs : List.Sorted (· < ·) ls) :
    ∃ v, find_nearest ls t = some (some v) ∧ v ∈ ls ∧
      (∀ x ∈ ls, |t - v| ≤ |t - x|) ∧
      (t ≤ ls.getD 0 0 → v = ls.getD 0 0) ∧
      (ls.getD (ls.length - 1) 0 ≤ t → v = ls.getD (ls.length - 1) 0) := by
  have hlen : 0 < ls.length := List.length_pos.mpr hne
  rw [find_nearest]
  by_cases htop : ls.getD (ls.length - 1) 0 ≤ t
  · rw [if_pos htop]
    refine ⟨ls.getD (ls.length - 1) 0, rfl, getD_mem_of_lt ls _ (by omega), ?_, ?_, fun _ => rfl⟩
    · intro x hx
      obtain ⟨⟨k, hk⟩, hget⟩ := List.mem_iff_get.mp hx
      have hxk : x = ls.getD k 0 := by rw [List.getD_eq_get ls 0 hk, hget]
      have hxle : x ≤ ls.getD (ls.length - 1) 0 := by
        rw [hxk]; exact sorted_getD_le ls hs (by omega) (by omega)
      have h3 : |t - ls.getD (ls.length - 1) 0| = t - ls.getD (ls.length - 1) 0 :=
        abs_of_nonneg (by linarith)
      have h4 : |t - x| = t - x := abs_of_nonneg (by linarith)
      rw [h3, h4]; linarith
    · intro hbot
      have h0 : ls.getD 0 0 ≤ ls.getD (ls.length - 1) 0 :=
        sorted_getD_le ls hs (by omega) (by omega)
      have : ls.getD (ls.length - 1) 0 = ls.getD 0 0 := le_antisymm (by linarith) h0
      exact this
  · rw [if_neg htop]
    by_cases hbot : t ≤ ls.getD 0 0
    · rw [if_pos hbot]
      refine ⟨ls.getD 0 0, rfl, getD_mem_of_lt ls 0 hlen, ?_, fun _ => rfl, ?_⟩
      · intro x hx
        obtain ⟨⟨k, hk⟩, hget⟩ := List.mem_iff_get.mp hx
        have hxk : x = ls.getD k 0 := by rw [List.getD_eq_get ls 0 hk, hget]
        have hxge : ls.getD 0 0 ≤ x := by
          rw [hxk]; exact sorted_getD_le ls hs (Nat.zero_le k) hk
        have h3 : |t - ls.getD 0 0| = ls.getD 0 0 - t := by
          rw [abs_sub_comm]; exact abs_of_nonneg (by linarith)
        have h4 : |t - x| = x - t := by
          rw [abs_sub_comm]; exact abs_of_nonneg (by linarith)
        rw [h3, h4]; linarith
      · intro htop2
        exact absurd htop2 htop
    · rw [if_neg hbot]
      have h0t : ls.getD 0 0 < t := lt_of_not_le hbot
      have htopt : t < ls.getD (ls.length - 1) 0 := lt_of_not_le htop
      have hn2 : 2 ≤ ls.length := by
        by_contra hc
        have h10 : ls.length - 1 = 0 := by omega
        rw [h10] at htopt
        exact absurd h0t (not_lt_of_gt htopt)
      obtain ⟨v, hv, hvmem, hvmin⟩ :=
        findNearestLoop_correct ls t hs hn2 htopt (ls.length + 1) 0 ls.length
          hlen le_rfl (by omega) h0t (fun hh => absurd hh (lt_irrefl _))
      exact ⟨v, hv, hvmem, hvmin, fun hh => absurd hh hbot, fun hh => absurd hh htop⟩

/-! ### argmax (numpy first-occurrence semantics) -/

lemma scanMax_spec (xs : List ℚ) : ∀ (bi : ℕ) (bv : ℚ) (i : ℕ),
    bv ≤ (scanMax xs (bi, bv) i).2 ∧
    (∀ j, j < xs.length → xs.getD j 0 ≤ (scanMax xs (bi, bv) i).2) ∧
    (scanMax xs (bi, bv) i = (bi, bv) ∨
      ∃ j, j < xs.length ∧ (scanMax xs (bi, bv) i).1 = i + j ∧
        xs.getD j 0 = (scanMax xs (bi, bv) i).2 ∧ bv < (scanMax xs (bi, bv) i).2 ∧
        ∀ k, k < j → xs.getD k 0 < (scanMax xs (bi, bv) i).2) := by
  induction xs with
  | nil =>
    intro bi bv i
    refine ⟨le_refl _, ?_, Or.inl rfl⟩
    intro j hj
    simp at hj
  | cons x xs ih =>
    intro bi bv i
    by_cases hbx : bv < x
    · have hrw : scanMax (x :: xs) (bi, bv) i = scanMax xs (i, x) (i + 1) := by
        rw [scanMax, if_pos hbx]
      obtain ⟨ih1, ih2, ih3⟩ := ih i x (i + 1)
      rw [hrw]
      refine ⟨le_of_lt (lt_of_lt_of_le hbx ih1), ?_, ?_⟩
      · intro j hj
        cases j with
        | zero => exact ih1
        | succ j => exact ih2 j (by simpa using hj)
      · rcases ih3 with hcase | ⟨j, hj1, hj2, hj3, hj4, hj5⟩
        · refine Or.inr ⟨0, by simp, ?_, ?_, ?_, ?_⟩
          · rw [hcase]; simp
          · rw [hcase]; rfl
          · rw [hcase]; exact hbx
          · intro k hk; omega
        · refine Or.inr ⟨j + 1, by simpa using hj1, by omega, hj3, lt_trans hbx hj4, ?_⟩
          intro k hk
          cases k with
          | zero => exact hj4
          | succ k => exact hj5 k (by omega)
    · have hrw : scanMax (x :: xs) (bi, bv) i = scanMax xs (bi, bv) (i + 1) := by
        rw [scanMax, if_neg hbx]
      obtain ⟨ih1, ih2, ih3⟩ := ih bi bv (i + 1)
      rw [hrw]
      refine ⟨ih1, ?_, ?_⟩
      · intro j hj
        cases j with
        | zero => exact le_trans (le_of_not_lt hbx) ih1
        | succ j => exact ih2 j (by simpa using hj)
      · rcases ih3 with hcase | ⟨j, hj1, hj2, hj3, hj4, hj5⟩
        · exact Or.inl hcase
        · refine Or.inr ⟨j + 1, by simpa using hj1, by omega, hj3, hj4, ?_⟩
          intro k hk
          cases k with
          | zero => exact lt_of_le_of_lt (le_of_not_lt hbx) hj4
          | succ k => exact hj5 k (by omega)

lemma argmax_spec (l : List ℚ) (h : l ≠ []) :
    (argmax l).1 < l.length ∧
    l.getD (argmax l).1 0 = (argmax l).2 ∧
    (∀ j, j < l.length → l.getD j 0 ≤ (argmax l).2) ∧
    (∀ k, k < (argmax l).1 → l.getD k 0 < (argmax l).2) := by
  obtain ⟨x, xs, rfl⟩ := List.exists_cons_of_ne_nil h
  have hrw : argmax (x :: xs) = scanMax xs (0, x) 1 := rfl
  obtain ⟨h1, h2, h3⟩ := scanMax_spec xs 0 x 1
  rw [hrw]
  rcases h3 with hcase | ⟨j, hj1, hj2, hj3, hj4, hj5⟩
  · rw [hcase]
    refine ⟨by simp, rfl, ?_, ?_⟩
    · intro j hj
      cases j with
      | zero => exact le_rfl
      | succ j =>
        rw [hcase] at h2
        exact h2 j (by simpa using hj)
    · intro k hk
      simp at hk
  · refine ⟨by simp; omega, ?_, ?_, ?_⟩
    · rw [hj2]
      have : 1 + j = j + 1 := by omega
      rw [this]
      exact hj3
    · intro m hm
      cases m with
      | zero => exact le_of_lt hj4
      | succ m => exact h2 m (by simpa using hm)
    · intro k hk
      rw [hj2] at hk
      cases k with
      | zero => exact hj4
      | succ k => exact hj5 k (by omega)

/-! ### Index-resolution helpers -/

lemma lastIdxOf_eq_none {α : Type} [DecidableEq α] (l : List α) (v : α) (h : v ∉ l) :
    lastIdxOf l v = none := by
  induction l with
  | nil => rfl
  | cons x xs ih =>
    simp only [List.mem_cons, not_or] at h
    rw [lastIdxOf, ih h.2]
    exact if_neg (fun hh => h.1 hh.symm)

lemma resolveStateAux_eq_none (domains : List (List ℚ)) (s : List ℚ) :
    ∀ (k i : ℕ), i < s.length → i + k < domains.length →
      s.getD i 0 ∉ domains.getD (i + k) [] →
      resolveStateAux domains k s = none := by
  induction s with
  | nil =>
    intro k i hi _ _
    simp at hi
  | cons v rest ih =>
    intro k i hi hd hmem
    cases i with
    | zero =>
      have hk : k < domains.length := by simpa using hd
      have hget : domains.get? k = some (domains.getD k []) := by
        rw [List.getD_eq_get domains [] hk, List.get?_eq_get hk]
      have hli : lastIdxOf (domains.getD k []) v = none :=
        lastIdxOf_eq_none _ _ (by simpa using hmem)
      simp only [resolveStateAux, hget, hli]
    | succ j =>
      cases hget : domains.get? k with
      | none => simp only [resolveStateAux, hget]
      | some dom =>
        cases hli : lastIdxOf dom v with
        | none => simp only [resolveStateAux, hget, hli]
        | some idx =>
          have hrec : resolveStateAux domains (k + 1) rest = none := by
            refine ih (k + 1) j (by simpa using hi) (by omega) ?_
            have hjk : j + (k + 1) = j + 1 + k := by omega
            rw [hjk]
            simpa using hmem
          simp only [resolveStateAux, hget, hli, hrec]

lemma resolveState_eq_none (domains : List (List ℚ)) (s : List ℚ) (i : ℕ)
    (hi : i < s.length) (hd : i < domains.length)
    (hmem : s.getD i 0 ∉ domains.getD i []) :
    resolveState domains s = none :=
  resolveStateAux_eq_none domains s 0 i hi (by omega) (by simpa using hmem)

lemma get_qvalue_inv (q : QTable) (s : List ℚ) (a : ℕ) (old : ℚ)
    (h : q.get_qvalue s a = some old) :
    ∃ idxs ai, resolveState q.observation_space s = some idxs ∧
      lastIdxOf q.actions a = some ai ∧ old = q.table idxs ai := by
  rw [QTable.get_qvalue] at h
  cases hres : resolveState q.observation_space s with
  | none =>
    rw [hres] at h
    simp at h
  | some idxs =>
    rw [hres] at h
    cases hai : lastIdxOf q.actions a with
    | none =>
      rw [hai] at h
      simp at h
    | some ai =>
      rw [hai] at h
      simp at h
      exact ⟨idxs, ai, rfl, rfl, h.symm⟩

/-! ### stateActionValues and get_max_action helpers -/

lemma stateActionValues_length (q : QTable) (idxs : List ℕ) :
    (q.stateActionValues idxs).length = q.actions.length := by
  simp [QTable.stateActionValues]

lemma stateActionValues_getD (q : QTable) (idxs : List ℕ) (b : ℕ)
    (hb : b < q.actions.length) :
    (q.stateActionValues idxs).getD b 0 = q.table idxs b := by
  rw [QTable.stateActionValues, List.getD_eq_get?, List.get?_map, List.get?_range hb]
  rfl

lemma get_max_action_eq (q : QTable) (s : List ℚ) (idxs : List ℕ)
    (hres : resolveState q.observation_space s = some idxs) (hact : q.actions ≠ []) :
    ∃ i, q.get_max_action s = some (q.actions.getD i 0, q.table idxs i) ∧
      i < q.actions.length ∧
      (∀ b, b < q.actions.length → q.table idxs b ≤ q.table idxs i) ∧
      (∀ k, k < i → q.table idxs k < q.table idxs i) := by
  have hlen := stateActionValues_length q idxs
  have hvne : q.stateActionValues idxs ≠ [] := by
    intro hh
    rw [hh] at hlen
    exact hact (List.length_eq_zero.mp hlen.symm)
  obtain ⟨hilt, hival, hmax, hfirst⟩ := argmax_spec (q.stateActionValues idxs) hvne
  have hia : (argmax (q.stateActionValues idxs)).1 < q.actions.length := by omega
  have hvi : (argmax (q.stateActionValues idxs)).2 =
      q.table idxs (argmax (q.stateActionValues idxs)).1 := by
    rw [← hival, stateActionValues_getD q idxs _ hia]
  refine ⟨(argmax (q.stateActionValues idxs)).1, ?_, hia, ?_, ?_⟩
  · have h1 : q.actions.get? (argmax (q.stateActionValues idxs)).1 =
        some (q.actions.getD (argmax (q.stateActionValues idxs)).1 0) := by
      rw [List.getD_eq_get q.actions 0 hia, List.get?_eq_get hia]
    have h2 : (q.stateActionValues idxs).get? (argmax (q.stateActionValues idxs)).1 =
        some (q.table idxs (argmax (q.stateActionValues idxs)).1) := by
      rw [List.get?_eq_get hilt, ← List.getD_eq_get _ 0 hilt, hival, hvi]
    simp only [QTable.get_max_action, hres, h1, h2]
  · intro b hb
    have hb2 : b < (q.stateActionValues idxs).length := by omega
    have hle := hmax b hb2
    rw [stateActionValues_getD q idxs b hb, hvi] at hle
    exact hle
  · intro k hk
    have hk2 : k < q.actions.length := lt_trans hk hia
    have hlt := hfirst k hk
    rw [stateActionValues_getD q idxs k hk2, hvi] at hlt
    exact hlt

/-! ### setCell and process_step helpers -/

lemma setCell_self (q : QTable) (idxs : List ℕ) (ai : ℕ) (v : ℚ) :
    (q.setCell idxs ai v).table idxs ai = v := by
  simp [QTable.setCell]

lemma setCell_other (q : QTable) (idxs : List ℕ) (ai : ℕ) (v : ℚ) (ks : List ℕ) (b : ℕ)
    (h : ¬(ks = idxs ∧ b = ai)) : (q.setCell idxs ai v).table ks b = q.table ks b := by
  simp only [QTable.setCell]
  rw [if_neg h]

lemma process_step_eq (q : QTable) (s : List ℚ) (a : ℕ) (s2 : List ℚ) (r : ℚ)
    (idxs idxs2 : List ℕ) (ai : ℕ)
    (hres : resolveState q.observation_space s = some idxs)
    (hai : lastIdxOf q.actions a = some ai)
    (hres2 : resolveState q.observation_space s2 = some idxs2)
    (hact : q.actions ≠ []) :
    ∃ mi, q.process_step s a s2 r =
        (some (), q.setCell idxs ai
          ((1 - q.learning_rate) * q.table idxs ai +
            q.learning_rate * (r + q.discount_rate * q.table idxs2 mi))) ∧
      mi < q.actions.length ∧
      (∀ b, b < q.actions.length → q.table idxs2 b ≤ q.table idxs2 mi) ∧
      (∀ k, k < mi → q.table idxs2 k < q.table idxs2 mi) := by
  obtain ⟨mi, hgm, hmi, hmax, hfirst⟩ := get_max_action_eq q s2 idxs2 hres2 hact
  have hq : q.get_qvalue s a = some (q.table idxs ai) := by
    simp only [QTable.get_qvalue, hres, hai]
  refine ⟨mi, ?_, hmi, hmax, hfirst⟩
  simp only [QTable.process_step, hq, hgm, QTable.update_qvalue, hres, hai]

/-! ### Claim theorems -/

/-- C1: for in-domain arguments, `process_step(s, a, s2, r)` sets the cell for
`(s, a)` to `(1 - learning_rate) * old + learning_rate * (r + discount_rate * M)`
where `old` is the previous value at `(s, a)` and `M` is the maximum over all
actions of the stored value at `s2`, with `learning_rate` and `discount_rate`
the values fixed at construction. -/
theorem process_step_bellman (q : QTable) (s s2 : List ℚ) (a : ℕ) (r : ℚ) (old : ℚ)
    (idxs2 : List ℕ)
    (hold : q.get_qvalue s a = some old)
    (hres2 : resolveState q.observation_space s2 = some idxs2)
    (hact : q.actions ≠ []) :
    ∃ q2 M, q.process_step s a s2 r = (some (), q2) ∧
      (∃ b, b < q.actions.length ∧ q.table idxs2 b = M) ∧
      (∀ b, b < q.actions.length → q.table idxs2 b ≤ M) ∧
      q2.get_qvalue s a =
        some ((1 - q.learning_rate) * old +
          q.learning_rate * (r + q.discount_rate * M)) := by
  obtain ⟨idxs, ai, hres, hai, holdv⟩ := get_qvalue_inv q s a old hold
  obtain ⟨mi, hstep, hmi, hmax, _⟩ :=
    process_step_eq q s a s2 r idxs idxs2 ai hres hai hres2 hact
  subst holdv
  refine ⟨_, q.table idxs2 mi, hstep, ⟨mi, hmi, rfl⟩, hmax, ?_⟩
  simp [QTable.get_qvalue, QTable.setCell, hres, hai]

/-- C5: for in-domain arguments, `process_step` modifies only the cell indexed
by `(s, a)`; every other cell of the table, and the domains and action set,
are unchanged. -/
theorem process_step_frame (q : QTable) (s s2 : List ℚ) (a : ℕ) (r : ℚ)
    (idxs idxs2 : List ℕ) (ai : ℕ)
    (hres : resolveState q.observation_space s = some idxs)
    (hai : lastIdxOf q.actions a = some ai)
    (hres2 : resolveState q.observation_space s2 = some idxs2)
    (hact : q.actions ≠ []) :
    ∃ q2, q.process_step s a s2 r = (some (), q2) ∧
      (∀ ks b, ¬(ks = idxs ∧ b = ai) → q2.table ks b = q.table ks b) ∧
      q2.observation_space = q.observation_space ∧ q2.actions = q.actions := by
  obtain ⟨mi, hstep, _, _, _⟩ :=
    process_step_eq q s a s2 r idxs idxs2 ai hres hai hres2 hact
  refine ⟨_, hstep, ?_, rfl, rfl⟩
  intro ks b hksb
  exact setCell_other q idxs ai _ ks b hksb

/-- C6: for an in-domain state `s`, `_get_max_action` returns `(action, v)`
where `v` is the maximum over all actions of the stored value at `s`, the
returned action is the one at the argmax index, and that index is the
smallest index attaining the maximum (every strictly smaller index holds a
strictly smaller value).  `get_max_action` is a pure function of its inputs,
so repeated calls are deterministic. -/
theorem get_max_action_greedy (q : QTable) (s : List ℚ) (idxs : List ℕ)
    (hres : resolveState q.observation_space s = some idxs) (hact : q.actions ≠ []) :
    ∃ act v i, q.get_max_action s = some (act, v) ∧
      i < q.actions.length ∧ act = q.actions.getD i 0 ∧ v = q.table idxs i ∧
      (∀ b, b < q.actions.length → q.table idxs b ≤ v) ∧
      (∀ k, k < i → q.table idxs k < v) := by
  obtain ⟨i, heq, hi, hmax, hfirst⟩ := get_max_action_eq q s idxs hres hact
  exact ⟨_, _, i, heq, hi, rfl, rfl, hmax, hfirst⟩

/-- C2: on a non-empty strictly increasing domain, `find_nearest` returns an
element of the domain; targets at or below the first element are clamped to
it, targets at or above the last element are clamped to it, and the returned
element is always at minimum absolute distance from the target. -/
theorem find_nearest_correct (ls : List ℚ) (t : ℚ) (hne : ls ≠ [])
    (hs : List.Sorted (· < ·) ls) :
    ∃ v, find_nearest ls t = some (some v) ∧ v ∈ ls ∧
      (t ≤ ls.getD 0 0 → v = ls.getD 0 0) ∧
      (ls.getD (ls.length - 1) 0 ≤ t → v = ls.getD (ls.length - 1) 0) ∧
      (∀ x ∈ ls, |t - v| ≤ |t - x|) := by
  obtain ⟨v, h1, h2, h3, h4, h5⟩ := find_nearest_spec ls t hne hs
  exact ⟨v, h1, h2, h4, h5, h3⟩

/-- C3 counterexample: on the strictly increasing domain `[0,1,2,3]` the
target `3/2` is exactly equidistant from the adjacent elements `1` and `2`,
yet `find_nearest` returns `2`, the larger of the two tied elements, not the
smaller. -/
theorem find_nearest_tie_cex :
    find_nearest [0, 1, 2, 3] (3/2 : ℚ) = some (some 2) ∧
    |(3/2 : ℚ) - 1| = |(3/2 : ℚ) - 2| ∧ (1 : ℚ) < 2 := by
  refine ⟨?_, ?_, by norm_num⟩
  · norm_num [find_nearest, findNearestLoop, get_closer]
  · rw [show (3/2 : ℚ) - 1 = 1/2 by norm_num, show (3/2 : ℚ) - 2 = -(1/2) by norm_num,
      abs_neg]

/-- C3 amended: when the target is exactly equidistant from two adjacent
elements of a strictly increasing domain, `find_nearest` returns one of the
two tied elements (a minimizer of the distance), but not necessarily the
smaller one: which of the two is returned depends on the search path. -/
theorem find_nearest_tie_returns_tied (ls : List ℚ) (t : ℚ) (i : ℕ)
    (hs : List.Sorted (· < ·) ls) (hi : i + 1 < ls.length)
    (htie : |t - ls.getD i 0| = |t - ls.getD (i + 1) 0|) :
    ∃ v, find_nearest ls t = some (some v) ∧
      (v = ls.getD i 0 ∨ v = ls.getD (i + 1) 0) := by
  have hne : ls ≠ [] := by
    intro hh
    rw [hh] at hi
    simp at hi
  have hab : ls.getD i 0 < ls.getD (i + 1) 0 := sorted_getD_lt ls hs (by omega) hi
  have hat : ls.getD i 0 < t := by
    by_contra hc
    push_neg at hc
    have h1 : |t - ls.getD i 0| = ls.getD i 0 - t := by
      rw [abs_sub_comm]
      exact abs_of_nonneg (by linarith)
    have h2 : |t - ls.getD (i + 1) 0| = ls.getD (i + 1) 0 - t := by
      rw [abs_sub_comm]
      exact abs_of_nonneg (by linarith)
    rw [h1, h2] at htie
    linarith
  have htb : t < ls.getD (i + 1) 0 := by
    by_contra hc
    push_neg at hc
    have h1 : |t - ls.getD i 0| = t - ls.getD i 0 := abs_of_nonneg (by linarith)
    have h2 : |t - ls.getD (i + 1) 0| = t - ls.getD (i + 1) 0 :=
      abs_of_nonneg (by linarith)
    rw [h1, h2] at htie
    linarith
  have h1 : |t - ls.getD i 0| = t - ls.getD i 0 := abs_of_nonneg (by linarith)
  have h2 : |t - ls.getD (i + 1) 0| = ls.getD (i + 1) 0 - t := by
    rw [abs_sub_comm]
    exact abs_of_nonneg (by linarith)
  have htie2 : t - ls.getD i 0 = ls.getD (i + 1) 0 - t := by
    rw [h1, h2] at htie
    exact htie
  obtain ⟨v, hv, hvmem, hvmin, _, _⟩ := find_nearest_spec ls t hne hs
  refine ⟨v, hv, ?_⟩
  obtain ⟨⟨k, hk⟩, hget⟩ := List.mem_iff_get.mp hvmem
  have hvk : v = ls.getD k 0 := by rw [List.getD_eq_get ls 0 hk, hget]
  have hmin := hvmin (ls.getD i 0) (getD_mem_of_lt ls i (by omega))
  rcases Nat.lt_trichotomy k i with hki | hki | hki
  · exfalso
    have hlt : ls.getD k 0 < ls.getD i 0 := sorted_getD_lt ls hs hki (by omega)
    have h3 : |t - v| = t - ls.getD k 0 := by
      rw [hvk]
      exact abs_of_nonneg (by linarith)
    rw [h3, h1] at hmin
    linarith
  · exact Or.inl (by rw [hvk, hki])
  · rcases Nat.lt_trichotomy k (i + 1) with hki2 | hki2 | hki2
    · omega
    · exact Or.inr (by rw [hvk, hki2])
    · exfalso
      have hlt : ls.getD (i + 1) 0 < ls.getD k 0 := sorted_getD_lt ls hs hki2 hk
      have h3 : |t - v| = ls.getD k 0 - t := by
        rw [hvk, abs_sub_comm]
        exact abs_of_nonneg (by linarith)
      rw [h3, h1] at hmin
      linarith

/-- C4: for a strictly increasing domain and a target strictly between the
first and last elements (the non-clamped case), the binary-search loop always
exits by returning a value: it neither diverges (fuel `length + 1` is enough,
outer `some`) nor falls through the loop (inner `some`, Python would have
returned `None`), in particular the non-incrementing `start = mid` state is
always resolved by a return. -/
theorem findNearestLoop_terminates (ls : List ℚ) (t : ℚ)
    (hs : List.Sorted (· < ·) ls)
    (hlo : ls.getD 0 0 < t) (hhi : t < ls.getD (ls.length - 1) 0) :
    ∃ v, findNearestLoop ls t (ls.length + 1) 0 ls.length = some (some v) ∧
      find_nearest ls t = some (some v) := by
  have hn2 : 2 ≤ ls.length := by
    by_contra hc
    push_neg at hc
    have h10 : ls.length - 1 = 0 := by omega
    rw [h10] at hhi
    linarith
  have hlen : 0 < ls.length := by omega
  obtain ⟨v, hv, _, _⟩ :=
    findNearestLoop_correct ls t hs hn2 hhi (ls.length + 1) 0 ls.length hlen le_rfl
      (by omega) hlo (fun hh => absurd hh (lt_irrefl _))
  refine ⟨v, hv, ?_⟩
  rw [find_nearest, if_neg (not_le_of_lt hhi), if_neg (not_le_of_lt hlo), hv]

/-! ### Exploration-rate lemmas -/

lemma decayIter_decay (q : QTable) :
    ∀ n, (decayIter q n).exploration_decay = q.exploration_decay := by
  intro n
  induction n with
  | zero => rfl
  | succ n ih =>
    simpa [decayIter, QTable.update_exploration_rate] using ih

lemma decayIter_rate_succ (q : QTable) (n : ℕ) :
    (decayIter q (n + 1)).exploration_rate =
      (decayIter q n).exploration_rate * (1 - q.exploration_decay) := by
  simp only [decayIter, QTable.update_exploration_rate]
  rw [decayIter_decay q n]

lemma decayIter_rate_bounds (q : QTable) (h0 : 0 ≤ q.exploration_decay)
    (h1 : q.exploration_decay ≤ 1)
    (hr0 : 0 ≤ q.exploration_rate) (hr1 : q.exploration_rate ≤ 1) :
    ∀ n, 0 ≤ (decayIter q n).exploration_rate ∧ (decayIter q n).exploration_rate ≤ 1 := by
  intro n
  induction n with
  | zero => exact ⟨hr0, hr1⟩
  | succ n ih =>
    rw [decayIter_rate_succ]
    constructor
    · exact mul_nonneg ih.1 (by linarith)
    · calc (decayIter q n).exploration_rate * (1 - q.exploration_decay)
          ≤ 1 * 1 := by
            apply mul_le_mul ih.2 (by linarith) (by linarith) (by norm_num)
      _ = 1 := by norm_num

/-- C7: the exploration rate starts at 1 at construction, each decay call
multiplies it by `1 - exploration_decay`, and for any decay in `(0, 1]` the
rate is non-increasing along any sequence of decay calls and stays in
`[0, 1]`. -/
theorem exploration_rate_invariant (os : List (List ℚ)) (acts : List ℕ)
    (lr dr ed : ℚ) (h0 : 0 < ed) (h1 : ed ≤ 1) (n : ℕ) :
    (QTable.init os acts lr dr ed).exploration_rate = 1 ∧
    (decayIter (QTable.init os acts lr dr ed) (n + 1)).exploration_rate =
      (decayIter (QTable.init os acts lr dr ed) n).exploration_rate * (1 - ed) ∧
    (decayIter (QTable.init os acts lr dr ed) (n + 1)).exploration_rate ≤
      (decayIter (QTable.init os acts lr dr ed) n).exploration_rate ∧
    0 ≤ (decayIter (QTable.init os acts lr dr ed) n).exploration_rate ∧
    (decayIter (QTable.init os acts lr dr ed) n).exploration_rate ≤ 1 := by
  have hed : (QTable.init os acts lr dr ed).exploration_decay = ed := rfl
  have hbounds := decayIter_rate_bounds (QTable.init os acts lr dr ed)
    (by rw [hed]; exact le_of_lt h0) (by rw [hed]; exact h1)
    (by norm_num [QTable.init]) (by norm_num [QTable.init]) n
  have hsucc := decayIter_rate_succ (QTable.init os acts lr dr ed) n
  rw [hed] at hsucc
  refine ⟨rfl, hsucc, ?_, hbounds.1, hbounds.2⟩
  rw [hsucc]
  calc (decayIter (QTable.init os acts lr dr ed) n).exploration_rate * (1 - ed)
      ≤ (decayIter (QTable.init os acts lr dr ed) n).exploration_rate * 1 := by
        apply mul_le_mul_of_nonneg_left (by linarith) hbounds.1
    _ = (decayIter (QTable.init os acts lr dr ed) n).exploration_rate := mul_one _

/-- Concrete evaluation: the factor `(min, max) = (1, 0)` with step `1` has an
empty `arange`. -/
lemma arange_one_zero : arange (1 : ℚ) 0 1 = some [] := by
  have hc : (⌈((0 : ℚ) - 1) / 1⌉ : ℤ) = -1 := by
    have h1 : ((0 : ℚ) - 1) / 1 = -1 := by norm_num
    rw [h1, Int.ceil_neg, Int.floor_one]
  have htn : Int.toNat (-1) = 0 := rfl
  rw [arange, if_neg (by norm_num), hc, htn]
  rfl

/-- Concrete evaluation: discretizing the single factor `(1, 0)` with step `1`
returns normally with an empty domain inside. -/
lemma discretize_example_eq :
    discretize_observation_space [((1 : ℚ), 0)] [1] = some [[]] := by
  simp only [discretize_observation_space, arange_one_zero]

/-- C8 counterexample: the factor `(min, max) = (1, 0)` with step `1` yields an
empty representative sequence, yet `discretize_observation_space` raises no
error: it returns normally, with the empty domain inside the result. -/
theorem discretize_empty_domain_cex :
    discretize_observation_space [((1 : ℚ), 0)] [1] = some [[]] :=
  discretize_example_eq

/-- C8 amended: `discretize_observation_space` never signals an error because
of an empty factor: whenever it succeeds and factor `i`'s (min, max, step)
triple yields an empty representative sequence, the returned space simply
contains the empty sequence at position `i`. -/
theorem discretize_empty_domain_ok (bounds : List (ℚ × ℚ)) (steps : List ℚ)
    (space : List (List ℚ)) (i : ℕ)
    (hres : discretize_observation_space bounds steps = some space)
    (hi : i < bounds.length)
    (hempty : arange (bounds.getD i (0, 0)).1 (bounds.getD i (0, 0)).2
      (steps.getD i 0) = some []) :
    space.getD i [] = [] := by
  induction bounds generalizing steps space i with
  | nil => simp at hi
  | cons b bs ih =>
    cases steps with
    | nil => simp [discretize_observation_space] at hres
    | cons st sts =>
      cases har : arange b.1 b.2 st with
      | none =>
        rw [discretize_observation_space] at hres
        simp only [har] at hres
        exact Option.noConfusion hres
      | some dom =>
        cases hrest : discretize_observation_space bs sts with
        | none =>
          rw [discretize_observation_space] at hres
          simp only [har, hrest] at hres
          exact Option.noConfusion hres
        | some rest =>
          rw [discretize_observation_space] at hres
          simp only [har, hrest] at hres
          have hspace : space = dom :: rest := (Option.some.inj hres).symm
          cases i with
          | zero =>
            have hemp2 : arange b.1 b.2 st = some [] := hempty
            have hdom : dom = [] := by
              rw [har] at hemp2
              exact Option.some.inj hemp2
            rw [hspace, hdom]
            rfl
          | succ j =>
            have hemp2 : arange ((bs).getD j (0, 0)).1 ((bs).getD j (0, 0)).2
                ((sts).getD j 0) = some [] := hempty
            have := ih sts rest j hrest (by simpa using hi) hemp2
            rw [hspace]
            simpa using this

/-- C9: a state containing a factor value absent from the corresponding
domain, or an action outside the action set, makes the value lookup and the
update operation signal an error (`none`) instead of returning a value or
writing: the table is returned untouched. -/
theorem lookup_out_of_domain (q : QTable) (s : List ℚ) (a : ℕ) (s2 : List ℚ) (r : ℚ)
    (h : (∃ i, i < s.length ∧ i < q.observation_space.length ∧
            s.getD i 0 ∉ q.observation_space.getD i []) ∨ a ∉ q.actions) :
    q.get_qvalue s a = none ∧ q.process_step s a s2 r = (none, q) := by
  have hq : q.get_qvalue s a = none := by
    rcases h with ⟨i, hi, hd, hmem⟩ | ha
    · simp only [QTable.get_qvalue, resolveState_eq_none q.observation_space s i hi hd hmem]
    · cases hres : resolveState q.observation_space s with
      | none => simp only [QTable.get_qvalue, hres]
      | some idxs =>
        simp only [QTable.get_qvalue, hres, lastIdxOf_eq_none q.actions a ha]
  refine ⟨hq, ?_⟩
  simp only [QTable.process_step, hq]

/-- C10: if any argument of `process_step` is out of domain — a component of
`state` or of `new_state` absent from its factor domain, or an action outside
the action set — the error is signalled before the single write is reached:
the result is the error together with the completely unchanged table. -/
theorem process_step_atomic (q : QTable) (s : List ℚ) (a : ℕ) (s2 : List ℚ) (r : ℚ)
    (h : (∃ i, i < s.length ∧ i < q.observation_space.length ∧
            s.getD i 0 ∉ q.observation_space.getD i []) ∨
         a ∉ q.actions ∨
         (∃ i, i < s2.length ∧ i < q.observation_space.length ∧
            s2.getD i 0 ∉ q.observation_space.getD i [])) :
    q.process_step s a s2 r = (none, q) := by
  rcases h with hbad | ha | hbad2
  · have hq : q.get_qvalue s a = none := by
      obtain ⟨i, hi, hd, hmem⟩ := hbad
      simp only [QTable.get_qvalue, resolveState_eq_none q.observation_space s i hi hd hmem]
    simp only [QTable.process_step, hq]
  · have hq : q.get_qvalue s a = none := by
      cases hres : resolveState q.observation_space s with
      | none => simp only [QTable.get_qvalue, hres]
      | some idxs =>
        simp only [QTable.get_qvalue, hres, lastIdxOf_eq_none q.actions a ha]
    simp only [QTable.process_step, hq]
  · have hgm : q.get_max_action s2 = none := by
      obtain ⟨i, hi, hd, hmem⟩ := hbad2
      simp only [QTable.get_max_action,
        resolveState_eq_none q.observation_space s2 i hi hd hmem]
    cases hq : q.get_qvalue s a with
    | none => simp only [QTable.process_step, hq]
    | some old => simp only [QTable.process_step, hq, hgm]

/-! ### Witnesses -/

/-- Witness for C1 at the spec's worked example: domain `[0,1,2]`, two
actions, learning rate 1/2, discount rate 1, `value(0,0)=0`,
`value(1,*)=[2,4]`; `process_step(0, 0, 1, 1)` makes `value(0,0) = 5/2`. -/
theorem process_step_bellman_witness :
    exampleTable.get_qvalue [0] 0 = some 0 ∧
    (exampleTable.process_step [0] 0 [1] 1).2.get_qvalue [0] 0 = some (5/2) ∧
    (∃ q2 M, exampleTable.process_step [0] 0 [1] 1 = (some (), q2) ∧
      (∃ b, b < exampleTable.actions.length ∧ exampleTable.table [1] b = M) ∧
      (∀ b, b < exampleTable.actions.length → exampleTable.table [1] b ≤ M) ∧
      q2.get_qvalue [0] 0 =
        some ((1 - exampleTable.learning_rate) * 0 +
          exampleTable.learning_rate * (1 + exampleTable.discount_rate * M))) :=
  ⟨by decide,
    by
      norm_num [QTable.process_step, QTable.get_qvalue, QTable.update_qvalue,
        QTable.get_max_action, QTable.setCell, resolveState, resolveStateAux, lastIdxOf,
        QTable.stateActionValues, argmax, scanMax, exampleTable, List.range_succ],
    process_step_bellman exampleTable [0] [1] 0 1 0 [1] (by decide) (by decide) (by decide)⟩

/-- Witness for C2 on the domain `[0, 1, 2]` with the target `5` (clamped to
the last element). -/
theorem find_nearest_correct_witness :
    ∃ v, find_nearest [0, 1, 2] (5 : ℚ) = some (some v) ∧ v ∈ [(0 : ℚ), 1, 2] ∧
      ((5 : ℚ) ≤ [(0 : ℚ), 1, 2].getD 0 0 → v = [(0 : ℚ), 1, 2].getD 0 0) ∧
      ([(0 : ℚ), 1, 2].getD ([(0 : ℚ), 1, 2].length - 1) 0 ≤ 5 →
        v = [(0 : ℚ), 1, 2].getD ([(0 : ℚ), 1, 2].length - 1) 0) ∧
      (∀ x ∈ [(0 : ℚ), 1, 2], |5 - v| ≤ |5 - x|) :=
  find_nearest_correct [0, 1, 2] 5 (by decide) (by decide)

/-- Witness for the amended C3: on `[0,1,2,3]` with the tied target `3/2`, one
of the two tied elements `1`, `2` is returned. -/
theorem find_nearest_tie_returns_tied_witness :
    ∃ v, find_nearest [0, 1, 2, 3] (3/2 : ℚ) = some (some v) ∧
      (v = [(0 : ℚ), 1, 2, 3].getD 1 0 ∨ v = [(0 : ℚ), 1, 2, 3].getD (1 + 1) 0) :=
  find_nearest_tie_returns_tied [0, 1, 2, 3] (3/2) 1 (by decide) (by decide)
    (by
      have h1 : (3/2 : ℚ) - [(0 : ℚ), 1, 2, 3].getD 1 0 = 1/2 := by norm_num
      have h2 : (3/2 : ℚ) - [(0 : ℚ), 1, 2, 3].getD (1 + 1) 0 = -(1/2) := by norm_num
      rw [h1, h2, abs_neg])

/-- Witness for C4 on `[0,1,2,3]` with the non-clamped target `3/2`. -/
theorem findNearestLoop_terminates_witness :
    ∃ v, findNearestLoop [0, 1, 2, 3] (3/2 : ℚ) ([(0 : ℚ), 1, 2, 3].length + 1) 0
        [(0 : ℚ), 1, 2, 3].length = some (some v) ∧
      find_nearest [0, 1, 2, 3] (3/2 : ℚ) = some (some v) :=
  findNearestLoop_terminates [0, 1, 2, 3] (3/2) (by decide) (by norm_num) (by norm_num)

/-- Witness for C5 at the spec's worked example: only the `([0], 0)` cell may
change. -/
theorem process_step_frame_witness :
    ∃ q2, exampleTable.process_step [0] 0 [1] 1 = (some (), q2) ∧
      (∀ ks b, ¬(ks = [0] ∧ b = 0) → q2.table ks b = exampleTable.table ks b) ∧
      q2.observation_space = exampleTable.observation_space ∧
      q2.actions = exampleTable.actions :=
  process_step_frame exampleTable [0] [1] 0 1 [0] [1] 0 (by decide) (by decide) (by decide)
    (by decide)

/-- Witness for C6 at state `[1]` of the example table, where the values are
`[2, 4]`. -/
theorem get_max_action_greedy_witness :
    ∃ act v i, exampleTable.get_max_action [1] = some (act, v) ∧
      i < exampleTable.actions.length ∧ act = exampleTable.actions.getD i 0 ∧
      v = exampleTable.table [1] i ∧
      (∀ b, b < exampleTable.actions.length → exampleTable.table [1] b ≤ v) ∧
      (∀ k, k < i → exampleTable.table [1] k < v) :=
  get_max_action_greedy exampleTable [1] [1] (by decide) (by decide)

/-- Witness for C7 with the default decay `1/100` after two decay calls. -/
theorem exploration_rate_invariant_witness :
    (QTable.init [[0]] [0] (1/20) (99/100) (1/100)).exploration_rate = 1 ∧
    (decayIter (QTable.init [[0]] [0] (1/20) (99/100) (1/100)) (2 + 1)).exploration_rate =
      (decayIter (QTable.init [[0]] [0] (1/20) (99/100) (1/100)) 2).exploration_rate *
        (1 - 1/100) ∧
    (decayIter (QTable.init [[0]] [0] (1/20) (99/100) (1/100)) (2 + 1)).exploration_rate ≤
      (decayIter (QTable.init [[0]] [0] (1/20) (99/100) (1/100)) 2).exploration_rate ∧
    0 ≤ (decayIter (QTable.init [[0]] [0] (1/20) (99/100) (1/100)) 2).exploration_rate ∧
    (decayIter (QTable.init [[0]] [0] (1/20) (99/100) (1/100)) 2).exploration_rate ≤ 1 :=
  exploration_rate_invariant [[0]] [0] (1/20) (99/100) (1/100) (by norm_num) (by norm_num) 2

/-- Witness for the amended C8 at the concrete empty-domain construction. -/
theorem discretize_empty_domain_ok_witness :
    ([([] : List ℚ)] : List (List ℚ)).getD 0 [] = [] :=
  discretize_empty_domain_ok [((1 : ℚ), 0)] [1] [[]] 0 discretize_example_eq
    (by decide) arange_one_zero

/-- Witness for C9: the state `[5]` is outside the domain `[0, 1, 2]`, so the
lookup errors and `process_step` leaves the table untouched. -/
theorem lookup_out_of_domain_witness :
    exampleTable.get_qvalue [5] 0 = none ∧
    exampleTable.process_step [5] 0 [1] 1 = (none, exampleTable) :=
  lookup_out_of_domain exampleTable [5] 0 [1] 1
    (Or.inl ⟨0, by decide, by decide, by decide⟩)

/-- Witness for C10: the new state `[7]` is outside the domain, so the update
is rejected atomically. -/
theorem process_step_atomic_witness :
    exampleTable.process_step [0] 0 [7] 1 = (none, exampleTable) :=
  process_step_atomic exampleTable [0] 0 [7] 1
    (Or.inr (Or.inr ⟨0, by decide, by decide, by decide⟩))
